import Mathlib

/-!
Shallow embedding of the cluster reconciliation engine
(`reconcile.py` and `reconciliation_uploader.py`).

Python sets become `Finset String`, floats become `ℚ`, dicts become
association lists (preserving insertion order, unique keys), and the
mutable aliased cluster objects shared between `all_clusters` and the
tracking→cluster dict become an arena (`store : List Cluster`) with the
dict holding arena positions.
-/

/-- The `Cluster` record from `lib/clusters.py` as described by the data model:
trackings, orders, purchase orders, cost fields and review flags. -/
structure Cluster where
  trackings : Finset String
  orders : Finset String
  purchase_orders : Finset String
  non_reimbursed_trackings : Finset String
  email_ids : Finset String
  group : String
  expected_cost : ℚ
  tracked_cost : ℚ
  adjustment : ℚ
  manual_override : Bool
  verified : Bool
  below_cost : Bool
  notes : String
  last_ship_date : String
deriving DecidableEq

/-- The all-empty cluster, used as the out-of-range default for arena reads. -/
def emptyCluster : Cluster :=
  { trackings := ∅
    orders := ∅
    purchase_orders := ∅
    non_reimbursed_trackings := ∅
    email_ids := ∅
    group := ""
    expected_cost := 0
    tracked_cost := 0
    adjustment := 0
    manual_override := false
    verified := false
    below_cost := false
    notes := ""
    last_ship_date := "" }

instance : Inhabited Cluster := ⟨emptyCluster⟩

/-- Modelled from the spec: `Cluster.merge_with` lives in `lib/clusters.py`,
which is not under the provided sources. §4.1: absorbing a cluster unions
all trackings/orders/purchase_orders into the target. -/
def Cluster.merge_with (self other : Cluster) : Cluster :=
  { self with
    trackings := self.trackings ∪ other.trackings
    orders := self.orders ∪ other.orders
    purchase_orders := self.purchase_orders ∪ other.purchase_orders }

/-- `total_diff` from `reconciliation_uploader.py` lines 9-12. -/
def total_diff (cluster : Cluster) : ℚ :=
  if cluster.manual_override then 0
  else cluster.tracked_cost + cluster.adjustment - cluster.expected_cost

/-- `compare` from `reconciliation_uploader.py` lines 24-35 (namespaced to
avoid the core library's `Ord.compare`). -/
def Rec.compare (cluster_one cluster_two : Cluster) : Int :=
  if cluster_two.verified then -1
  else if cluster_one.verified && cluster_two.below_cost then 0
  else if !cluster_one.verified && cluster_two.below_cost then -1
  else if total_diff cluster_one < total_diff cluster_two then 1
  else 0

/-- Semantics of `functools.cmp_to_key` as used in
`download_upload_clusters_new` (`all_clusters.sort(key=cmp_to_key(compare))`):
a negative comparator value places the first argument before the second in the
ascending sort, a positive value places it after. -/
def sorts_before (c1 c2 : Cluster) : Prop := Rec.compare c1 c2 < 0

/-- A positive comparator value places the first argument after the second
(see `sorts_before`). -/
def sorts_after (c1 c2 : Cluster) : Prop := 0 < Rec.compare c1 c2

/-- `fill_costs` from `reconcile.py` lines 21-35. The order-info retriever is
abstracted as `getOrderCost : String → Option ℚ`; `none` models the lookup
raising an exception, which the loop catches and skips (`continue`), so a
failed order contributes nothing to the sum. Python iterates the `orders` set
in unspecified order; addition is commutative, so the sum over the `Finset`
is the faithful embedding. -/
def fill_costs (getOrderCost : String → Option ℚ) (cluster : Cluster) : Cluster :=
  { cluster with
    expected_cost :=
      ∑ o ∈ cluster.orders,
        match getOrderCost o with
        | some c => c
        | none => 0 }

/-- `ReconciliationUploader.find_candidate_downloads` lines 327-332: the
downloaded snapshot clusters whose trackings intersect the cluster's. -/
def find_candidate_downloads (cluster : Cluster) (downloaded_clusters : List Cluster) :
    List Cluster :=
  downloaded_clusters.filter fun d => decide (d.trackings ∩ cluster.trackings ≠ ∅)

/-- `ReconciliationUploader.override_pos_and_costs` lines 276-294, body of the
per-cluster loop: overwrite purchase_orders / non_reimbursed_trackings /
tracked_cost with the union/sum over the snapshot candidates. -/
def override_pos_and_costs (cluster : Cluster) (downloaded_clusters : List Cluster) :
    Cluster :=
  let cands := find_candidate_downloads cluster downloaded_clusters
  { cluster with
    purchase_orders := cands.foldl (fun s c => s ∪ c.purchase_orders) ∅
    non_reimbursed_trackings := cands.foldl (fun s c => s ∪ c.non_reimbursed_trackings) ∅
    tracked_cost := cands.foldl (fun s c => s + c.tracked_cost) 0 }

/-- `ReconciliationUploader.fill_adjustments` lines 305-325, body of the
per-cluster loop: import adjustment (summed) and notes (non-blank ones joined
with a semicolon) from all candidates; import the three review flags only when
there is exactly one candidate and its trackings and orders sets equal the
cluster's. -/
def fill_adjustments (cluster : Cluster) (downloaded_clusters : List Cluster) :
    Cluster :=
  let cands := find_candidate_downloads cluster downloaded_clusters
  let c1 :=
    { cluster with
      adjustment := (cands.map (·.adjustment)).sum
      notes := String.intercalate "; "
        ((cands.filter fun c => c.notes.trim ≠ "").map (·.notes)) }
  match cands with
  | [sheet_cluster] =>
      if sheet_cluster.trackings = cluster.trackings ∧
          sheet_cluster.orders = cluster.orders then
        { c1 with
          manual_override := sheet_cluster.manual_override
          verified := sheet_cluster.verified
          below_cost := sheet_cluster.below_cost }
      else c1
  | _ => c1

/-! ### The tracking → cluster mapping

A Python dict keyed by tracking strings, embedded as an association list that
keeps insertion order: lookup returns the first (unique) matching key, update
replaces in place, insertion appends. The cluster objects themselves live in
an arena `store : List Cluster`; the dict stores arena positions, which models
the aliasing of mutable cluster objects between the dict and `all_clusters`. -/

/-- Dict lookup: first entry with the given key. -/
def alookup (l : List (String × Nat)) (k : String) : Option Nat :=
  match l with
  | [] => none
  | (k2, v) :: rest => if k = k2 then some v else alookup rest k

/-- Dict assignment `d[k] = v`: replace the value of an existing key in place,
append a new key at the end (CPython insertion-order semantics). -/
def aupdate (l : List (String × Nat)) (k : String) (v : Nat) : List (String × Nat) :=
  match l with
  | [] => [(k, v)]
  | (k2, v2) :: rest => if k = k2 then (k, v) :: rest else (k2, v2) :: aupdate rest k v

/-- The state shared by `merge_by_trackings_tuples` and `fill_costs_new`:
the arena of cluster objects plus the tracking → cluster dict. -/
structure MergeState where
  store : List Cluster
  index : List (String × Nat)
deriving DecidableEq

/-- Arena read with the empty cluster as out-of-range default. -/
def getC (store : List Cluster) (i : Nat) : Cluster :=
  store.getD i emptyCluster

/-- Lexicographic comparison of char lists by code point. -/
def listCharLe : List Char → List Char → Bool
  | [], _ => true
  | _ :: _, [] => false
  | a :: as, b :: bs =>
      if a.val.toNat < b.val.toNat then true
      else if b.val.toNat < a.val.toNat then false
      else listCharLe as bs

/-- A concrete total order on strings; used only to enumerate a set of
trackings in some fixed order (Python's set iteration order is unspecified
and the resulting dict contents do not depend on it). -/
def strLe (a b : String) : Bool := listCharLe a.data b.data

theorem listCharLe_total (as bs : List Char) :
    listCharLe as bs = true ∨ listCharLe bs as = true := by
  induction as generalizing bs with
  | nil => exact Or.inl rfl
  | cons a as ih =>
      cases bs with
      | nil => exact Or.inr rfl
      | cons b bs =>
          simp only [listCharLe]
          rcases Nat.lt_trichotomy a.val.toNat b.val.toNat with h | h | h
          · left
            rw [if_pos h]
          · rcases ih bs with h4 | h4
            · left
              rw [if_neg (by omega), if_neg (by omega)]
              exact h4
            · right
              rw [if_neg (by omega), if_neg (by omega)]
              exact h4
          · right
            rw [if_pos h]

theorem listCharLe_antisymm {as bs : List Char} (h1 : listCharLe as bs = true)
    (h2 : listCharLe bs as = true) : as = bs := by
  induction as generalizing bs with
  | nil =>
      cases bs with
      | nil => rfl
      | cons b bs => simp [listCharLe] at h2
  | cons a as ih =>
      cases bs with
      | nil => simp [listCharLe] at h1
      | cons b bs =>
          simp only [listCharLe] at h1 h2
          rcases Nat.lt_trichotomy a.val.toNat b.val.toNat with h | h | h
          · rw [if_neg (by omega), if_pos h] at h2
            simp at h2
          · have ha : a = b := Char.ext (UInt32.toNat.inj h)
            rw [if_neg (by omega), if_neg (by omega)] at h1
            rw [if_neg (by omega), if_neg (by omega)] at h2
            rw [ha, ih h1 h2]
          · rw [if_neg (by omega), if_pos h] at h1
            simp at h1

theorem listCharLe_trans {as bs cs : List Char} (h1 : listCharLe as bs = true)
    (h2 : listCharLe bs cs = true) : listCharLe as cs = true := by
  induction as generalizing bs cs with
  | nil => rfl
  | cons a as ih =>
      cases bs with
      | nil => simp [listCharLe] at h1
      | cons b bs =>
          cases cs with
          | nil => simp [listCharLe] at h2
          | cons c cs =>
              simp only [listCharLe] at h1 h2 ⊢
              rcases Nat.lt_trichotomy a.val.toNat b.val.toNat with hab | hab | hab
              · rcases Nat.lt_trichotomy b.val.toNat c.val.toNat with hbc | hbc | hbc
                · rw [if_pos (by omega)]
                · rw [if_pos (by omega)]
                · rw [if_neg (by omega), if_pos hbc] at h2
                  simp at h2
              · rcases Nat.lt_trichotomy b.val.toNat c.val.toNat with hbc | hbc | hbc
                · rw [if_pos (by omega)]
                · rw [if_neg (by omega), if_neg (by omega)] at h1 h2 ⊢
                  exact ih h1 h2
                · rw [if_neg (by omega), if_pos hbc] at h2
                  simp at h2
              · rw [if_neg (by omega), if_pos hab] at h1
                simp at h1

theorem strLe_total (a b : String) : strLe a b = true ∨ strLe b a = true :=
  listCharLe_total a.data b.data

theorem strLe_antisymm {a b : String} (h1 : strLe a b = true)
    (h2 : strLe b a = true) : a = b := by
  cases a with
  | mk da =>
      cases b with
      | mk db => exact congrArg String.mk (listCharLe_antisymm h1 h2)

theorem strLe_trans {a b c : String} (h1 : strLe a b = true)
    (h2 : strLe b c = true) : strLe a c = true :=
  listCharLe_trans h1 h2

theorem strLe_asymm {a b : String} (hne : ¬ a = b) (h : strLe a b = true) :
    strLe b a = false := by
  cases h2 : strLe b a
  · rfl
  · exact absurd (strLe_antisymm h h2) hne

theorem strLe_false_of {x y z : String} (h1 : strLe y z = false)
    (h2 : strLe x z = true) : strLe y x = false := by
  cases h3 : strLe y x
  · rfl
  · rw [strLe_trans h3 h2] at h1
    cases h1

/-- Insert a string into a (sorted) list, keeping it sorted. -/
def sortedInsert (x : String) : List String → List String
  | [] => [x]
  | y :: rest => if strLe x y then x :: y :: rest else y :: sortedInsert x rest

theorem sortedInsert_cons_le {x y : String} {l : List String}
    (h : strLe x y = true) : sortedInsert x (y :: l) = x :: y :: l := by
  simp [sortedInsert, h]

theorem sortedInsert_cons_gt {x y : String} {l : List String}
    (h : strLe x y = false) : sortedInsert x (y :: l) = y :: sortedInsert x l := by
  simp [sortedInsert, h]

theorem sortedInsert_comm (a b : String) (l : List String) :
    sortedInsert a (sortedInsert b l) = sortedInsert b (sortedInsert a l) := by
  by_cases hab0 : a = b
  · subst hab0; rfl
  · induction l with
    | nil =>
        show sortedInsert a [b] = sortedInsert b [a]
        rcases strLe_total a b with hab | hba
        · rw [sortedInsert_cons_le hab,
            sortedInsert_cons_gt (strLe_asymm hab0 hab)]
          rfl
        · rw [sortedInsert_cons_gt (strLe_asymm (fun h => hab0 h.symm) hba),
            sortedInsert_cons_le hba]
          rfl
    | cons z rest ih =>
        cases hbz : strLe b z <;> cases haz : strLe a z
        · rw [sortedInsert_cons_gt hbz, sortedInsert_cons_gt haz,
            sortedInsert_cons_gt haz, sortedInsert_cons_gt hbz, ih]
        · have hba2 : strLe b a = false := strLe_false_of hbz haz
          rw [sortedInsert_cons_gt hbz, sortedInsert_cons_le haz,
            sortedInsert_cons_le haz, sortedInsert_cons_gt hba2,
            sortedInsert_cons_gt hbz]
        · have hab2 : strLe a b = false := strLe_false_of haz hbz
          rw [sortedInsert_cons_le hbz, sortedInsert_cons_gt hab2,
            sortedInsert_cons_gt haz, sortedInsert_cons_le hbz]
        · rcases strLe_total a b with hab | hba
          · have hba2 : strLe b a = false := strLe_asymm hab0 hab
            rw [sortedInsert_cons_le hbz, sortedInsert_cons_le hab,
              sortedInsert_cons_le haz, sortedInsert_cons_gt hba2,
              sortedInsert_cons_le hbz]
          · have hab2 : strLe a b = false := strLe_asymm (fun h => hab0 h.symm) hba
            rw [sortedInsert_cons_le hbz, sortedInsert_cons_gt hab2,
              sortedInsert_cons_le haz, sortedInsert_cons_le hba]

instance : LeftCommutative sortedInsert := ⟨sortedInsert_comm⟩

/-- The elements of a `Finset` of strings as a sorted list (a concrete,
kernel-computable stand-in for Python's set iteration, whose order is
unspecified and irrelevant here because dict contents do not depend on it). -/
def sortedTrackings (s : Finset String) : List String :=
  Multiset.foldr sortedInsert [] s.val

/-- `map_clusters_by_tracking` from `reconcile.py` lines 81-86: every tracking
of every cluster is keyed to its cluster (a later cluster wins on a duplicate).
Python iterates each `trackings` set in unspecified order; we fix the sorted
order, which yields the same dict contents. -/
def map_clusters_by_tracking (all_clusters : List Cluster) : MergeState :=
  { store := all_clusters
    index :=
      (List.range all_clusters.length).foldl
        (fun idx i =>
          (sortedTrackings (getC all_clusters i).trackings).foldl
            (fun idx2 t => aupdate idx2 t i) idx)
        [] }

/-- The absorption loop of `merge_by_trackings_tuples` (lines 106-109): each
resolved cluster after the first is merged into the first unless its trackings
and orders are both already subsets of the first's current sets. -/
def absorbOthers (store : List Cluster) (first : Nat) : List Nat → List Cluster
  | [] => store
  | j :: rest =>
      let fc := getC store first
      let oc := getC store j
      if oc.trackings ⊆ fc.trackings ∧ oc.orders ⊆ fc.orders then
        absorbOthers store first rest
      else
        absorbOthers (store.set first (fc.merge_with oc)) first rest

/-- One iteration of the loop of `merge_by_trackings_tuples` (lines 90-111):
skip singleton tuples, resolve the tuple's trackings through the dict skipping
unknown ones, absorb the later resolved clusters into the first, then point
every tracking of the tuple at the first resolved cluster. -/
def processTuple (s : MergeState) (tup : List String) : MergeState :=
  if tup.length = 1 then s
  else
    match tup.filterMap (alookup s.index) with
    | [] => s
    | first :: others =>
        { store := absorbOthers s.store first others
          index := tup.foldl (fun idx t => aupdate idx t first) s.index }

/-- `merge_by_trackings_tuples` from `reconcile.py` lines 89-111. The
`trackings_to_cost` dict is embedded as an insertion-ordered list of
(trackings tuple, cost) pairs; the cost is unused here. -/
def merge_by_trackings_tuples (s : MergeState)
    (trackings_to_cost : List (List String × ℚ)) : MergeState :=
  trackings_to_cost.foldl (fun st p => processTuple st p.1) s

/-! ### fill_costs_new -/

/-- The `--groups` filter `if args.groups and cluster.group not in args.groups`
(lines 118-119): `args.groups` is `none` when the flag is absent; an empty
list is falsy in Python, so it does not filter either. -/
def skipCluster (groups : Option (List String)) (g : String) : Bool :=
  match groups with
  | none => false
  | some gs => !gs.isEmpty && !gs.contains g

/-- One iteration of the first loop of `fill_costs_new` (lines 115-121):
unless filtered out by `--groups`, reset the dict value's
`non_reimbursed_trackings` to a copy of `trackings` and `tracked_cost` to 0. -/
def resetStep (groups : Option (List String)) (st : List Cluster)
    (p : String × Nat) : List Cluster :=
  let c := getC st p.2
  if skipCluster groups c.group then st
  else st.set p.2 { c with non_reimbursed_trackings := c.trackings, tracked_cost := 0 }

/-- First loop of `fill_costs_new` (lines 115-121), one `resetStep` per dict
value (one per key). -/
def resetPhase (groups : Option (List String)) (store : List Cluster)
    (index : List (String × Nat)) : List Cluster :=
  index.foldl (resetStep groups) store

/-- Remove every tracking of the tuple that is present (lines 130-132). -/
def removeAll (s : Finset String) (tup : List String) : Finset String :=
  tup.foldl (fun acc t => acc.erase t) s

/-- Second loop of `fill_costs_new` (lines 125-132): attribute each tuple's
cost to the cluster owning the tuple's first tracking, if mapped, and drop the
tuple's trackings from that cluster's `non_reimbursed_trackings`. An empty
tuple would raise an IndexError in Python; it is treated as skipped here and
excluded by hypothesis in the theorems. -/
def attributeStep (index : List (String × Nat)) (st : List Cluster)
    (p : List String × ℚ) : List Cluster :=
  match p.1 with
  | [] => st
  | first_tracking :: _ =>
      match alookup index first_tracking with
      | none => st
      | some i =>
          let c := getC st i
          st.set i
            { c with
              tracked_cost := c.tracked_cost + p.2
              non_reimbursed_trackings := removeAll c.non_reimbursed_trackings p.1 }

/-- The second loop of `fill_costs_new`, one `attributeStep` per tuple. -/
def attributePhase (store : List Cluster) (index : List (String × Nat))
    (trackings_to_cost : List (List String × ℚ)) : List Cluster :=
  trackings_to_cost.foldl (attributeStep index) store

/-- Sum of the known costs of a cluster's purchase orders; a missing entry
contributes `0` (`po_to_cost.get(po, 0.0)`, line 139). The set iteration order
is unspecified; addition commutes, so the `Finset` sum is faithful. -/
def poSum (pos : Finset String) (po_to_cost : String → Option ℚ) : ℚ :=
  ∑ po ∈ pos, match po_to_cost po with
    | some c => c
    | none => 0

/-- Third loop of `fill_costs_new` (lines 135-139): for every dict *value* —
one per key, so a cluster owning several trackings is visited several times —
add the cluster's purchase-order costs to its `tracked_cost`. -/
def poStep (po_to_cost : String → Option ℚ) (st : List Cluster)
    (p : String × Nat) : List Cluster :=
  let c := getC st p.2
  st.set p.2 { c with tracked_cost := c.tracked_cost + poSum c.purchase_orders po_to_cost }

/-- The third loop of `fill_costs_new`, one `poStep` per dict value (one per
key). -/
def poPhase (store : List Cluster) (index : List (String × Nat))
    (po_to_cost : String → Option ℚ) : List Cluster :=
  index.foldl (poStep po_to_cost) store

/-- `fill_costs_new` from `reconcile.py` lines 114-139. -/
def fill_costs_new (s : MergeState) (trackings_to_cost : List (List String × ℚ))
    (po_to_cost : String → Option ℚ) (groups : Option (List String)) : MergeState :=
  { s with
    store :=
      poPhase
        (attributePhase (resetPhase groups s.store s.index) s.index trackings_to_cost)
        s.index po_to_cost }

/-! ### Helper lemmas: arena reads and writes -/

theorem getC_set_self {store : List Cluster} {i : Nat} {c : Cluster}
    (h : i < store.length) : getC (store.set i c) i = c := by
  simp [getC, List.getD_eq_getElem?_getD, List.getElem?_set_self h]

theorem getC_set_ne {store : List Cluster} {i j : Nat} {c : Cluster}
    (h : i ≠ j) : getC (store.set i c) j = getC store j := by
  simp [getC, List.getD_eq_getElem?_getD, List.getElem?_set_ne h]

/-! ### Helper lemmas: dict lookup and assignment -/

theorem alookup_aupdate_self (l : List (String × Nat)) (k : String) (v : Nat) :
    alookup (aupdate l k v) k = some v := by
  induction l with
  | nil => simp [aupdate, alookup]
  | cons p rest ih =>
      rcases p with ⟨k2, v2⟩
      by_cases h : k = k2
      · simp [aupdate, h, alookup]
      · simp [aupdate, h, alookup, ih]

theorem alookup_aupdate_ne {l : List (String × Nat)} {k t : String} {v : Nat}
    (h : t ≠ k) : alookup (aupdate l k v) t = alookup l t := by
  induction l with
  | nil => simp [aupdate, alookup, h]
  | cons p rest ih =>
      rcases p with ⟨k2, v2⟩
      by_cases h2 : k = k2
      · subst h2; simp [aupdate, alookup, h]
      · by_cases h3 : t = k2 <;> simp [aupdate, alookup, h2, h3, ih]

theorem aupdate_same {l : List (String × Nat)} {k : String} {v : Nat}
    (h : alookup l k = some v) : aupdate l k v = l := by
  induction l with
  | nil => simp [alookup] at h
  | cons p rest ih =>
      rcases p with ⟨k2, v2⟩
      by_cases h2 : k = k2
      · subst h2
        simp [alookup] at h
        simp [aupdate, h]
      · simp [alookup, h2] at h
        simp [aupdate, h2, ih h]

theorem alookup_mem {l : List (String × Nat)} {k : String} {v : Nat}
    (h : alookup l k = some v) : (k, v) ∈ l := by
  induction l with
  | nil => simp [alookup] at h
  | cons p rest ih =>
      rcases p with ⟨k2, v2⟩
      by_cases h2 : k = k2
      · subst h2
        simp [alookup] at h
        simp [h]
      · simp [alookup, h2] at h
        simp [ih h]

theorem mem_keys_aupdate {l : List (String × Nat)} {k x : String} {v : Nat}
    (h : x ∈ (aupdate l k v).map Prod.fst) : x ∈ l.map Prod.fst ∨ x = k := by
  induction l with
  | nil => simp [aupdate] at h; simp [h]
  | cons p rest ih =>
      rcases p with ⟨k2, v2⟩
      by_cases h2 : k = k2
      · subst h2
        simp [aupdate] at h
        rcases h with h | h
        · simp [h]
        · exact Or.inl (by simp [h])
      · simp [aupdate, h2] at h
        rcases h with h | h
        · simp [h]
        · rcases ih (by simpa using h) with h3 | h3
          · exact Or.inl (by simp [h3])
          · simp [h3]

theorem aupdate_keys_nodup {l : List (String × Nat)} {k : String} {v : Nat}
    (h : (l.map Prod.fst).Nodup) : ((aupdate l k v).map Prod.fst).Nodup := by
  induction l with
  | nil => simp [aupdate]
  | cons p rest ih =>
      rcases p with ⟨k2, v2⟩
      by_cases h2 : k = k2
      · subst h2
        simpa [aupdate] using h
      · simp only [List.map_cons, List.nodup_cons] at h
        have he : aupdate ((k2, v2) :: rest) k v = (k2, v2) :: aupdate rest k v := by
          simp [aupdate, h2]
        rw [he, List.map_cons, List.nodup_cons]
        refine ⟨?_, ih h.2⟩
        intro hmem
        rcases mem_keys_aupdate hmem with h3 | h3
        · exact h.1 h3
        · exact h2 h3.symm

theorem mem_aupdate {l : List (String × Nat)} {k : String} {v : Nat}
    {p : String × Nat} (hnd : (l.map Prod.fst).Nodup) (hp : p ∈ aupdate l k v) :
    p = (k, v) ∨ (p ∈ l ∧ p.1 ≠ k) := by
  induction l with
  | nil => simp [aupdate] at hp; simp [hp]
  | cons q rest ih =>
      rcases q with ⟨k2, v2⟩
      simp only [List.map_cons, List.nodup_cons] at hnd
      by_cases h2 : k = k2
      · subst h2
        simp [aupdate] at hp
        rcases hp with hp | hp
        · simp [hp]
        · right
          refine ⟨List.mem_cons_of_mem _ hp, ?_⟩
          intro hk
          exact hnd.1 (hk ▸ List.mem_map_of_mem Prod.fst hp)
      · simp [aupdate, h2] at hp
        rcases hp with hp | hp
        · right
          refine ⟨by simp [hp], ?_⟩
          rw [hp]
          exact fun hk => h2 hk.symm
        · rcases ih hnd.2 hp with h3 | h3
          · simp [h3]
          · exact Or.inr ⟨List.mem_cons_of_mem _ h3.1, h3.2⟩

/-! ### Helper lemmas: the index-repointing fold of `processTuple` -/

theorem alookup_foldl_aupdate_not_mem (tup : List String) (idx : List (String × Nat))
    (first : Nat) {t : String} (h : t ∉ tup) :
    alookup (tup.foldl (fun i x => aupdate i x first) idx) t = alookup idx t := by
  induction tup generalizing idx with
  | nil => rfl
  | cons t0 rest ih =>
      simp only [List.foldl_cons]
      rw [ih (aupdate idx t0 first) (fun hm => h (List.mem_cons_of_mem _ hm))]
      exact alookup_aupdate_ne (fun he => h (he ▸ List.mem_cons_self t0 rest))

theorem alookup_foldl_aupdate_mem (tup : List String) (idx : List (String × Nat))
    (first : Nat) {t : String} (h : t ∈ tup) :
    alookup (tup.foldl (fun i x => aupdate i x first) idx) t = some first := by
  induction tup generalizing idx with
  | nil => simp at h
  | cons t0 rest ih =>
      simp only [List.foldl_cons]
      by_cases hr : t ∈ rest
      · exact ih (aupdate idx t0 first) hr
      · have ht0 : t = t0 := by
          rcases List.mem_cons.1 h with h1 | h1
          · exact h1
          · exact absurd h1 hr
        subst ht0
        rw [alookup_foldl_aupdate_not_mem rest _ first hr]
        exact alookup_aupdate_self idx t first

theorem foldl_aupdate_keys_nodup (tup : List String) {idx : List (String × Nat)}
    (first : Nat) (h : (idx.map Prod.fst).Nodup) :
    (((tup.foldl (fun i x => aupdate i x first) idx)).map Prod.fst).Nodup := by
  induction tup generalizing idx with
  | nil => exact h
  | cons t0 rest ih => exact ih (aupdate_keys_nodup h)

theorem mem_foldl_aupdate {tup : List String} {idx : List (String × Nat)}
    {first : Nat} {p : String × Nat} (hnd : (idx.map Prod.fst).Nodup)
    (hp : p ∈ tup.foldl (fun i x => aupdate i x first) idx) :
    (p.1 ∈ tup ∧ p.2 = first) ∨ (p.1 ∉ tup ∧ p ∈ idx) := by
  induction tup generalizing idx with
  | nil => exact Or.inr ⟨by simp, hp⟩
  | cons t0 rest ih =>
      simp only [List.foldl_cons] at hp
      rcases ih (aupdate_keys_nodup hnd) hp with h1 | h1
      · exact Or.inl ⟨List.mem_cons_of_mem _ h1.1, h1.2⟩
      · rcases mem_aupdate hnd h1.2 with h2 | h2
        · subst h2
          exact Or.inl ⟨List.mem_cons_self _ _, rfl⟩
        · refine Or.inr ⟨?_, h2.1⟩
          intro hm
          rcases List.mem_cons.1 hm with h3 | h3
          · exact h2.2 h3
          · exact h1.1 h3

/-! ### Helper lemmas: the absorption loop -/

theorem absorbOthers_length (store : List Cluster) (first : Nat) (os : List Nat) :
    (absorbOthers store first os).length = store.length := by
  induction os generalizing store with
  | nil => rfl
  | cons o rest ih =>
      simp only [absorbOthers]
      split
      · exact ih store
      · rw [ih]; simp

theorem absorbOthers_getC_ne {store : List Cluster} {first j : Nat} {os : List Nat}
    (h : j ≠ first) : getC (absorbOthers store first os) j = getC store j := by
  induction os generalizing store with
  | nil => rfl
  | cons o rest ih =>
      simp only [absorbOthers]
      split
      · exact ih
      · rw [ih, getC_set_ne (fun he => h he.symm)]

theorem absorbOthers_first_mono {store : List Cluster} {first : Nat} (os : List Nat)
    (hf : first < store.length) :
    (getC store first).trackings ⊆ (getC (absorbOthers store first os) first).trackings ∧
    (getC store first).orders ⊆ (getC (absorbOthers store first os) first).orders := by
  induction os generalizing store with
  | nil => exact ⟨Finset.Subset.refl _, Finset.Subset.refl _⟩
  | cons o rest ih =>
      simp only [absorbOthers]
      split
      · exact ih hf
      · have hf2 : first < (store.set first ((getC store first).merge_with (getC store o))).length := by
          simpa using hf
        have step := @ih (store.set first ((getC store first).merge_with (getC store o))) hf2
        rw [getC_set_self hf] at step
        constructor
        · exact fun x hx => step.1 (Finset.mem_union_left _ hx)
        · exact fun x hx => step.2 (Finset.mem_union_left _ hx)

theorem absorbOthers_other_subset {store : List Cluster} {first j : Nat} {os : List Nat}
    (hf : first < store.length) (hj : j ∈ os) :
    (getC store j).trackings ⊆ (getC (absorbOthers store first os) first).trackings ∧
    (getC store j).orders ⊆ (getC (absorbOthers store first os) first).orders := by
  induction os generalizing store with
  | nil => simp at hj
  | cons o rest ih =>
      simp only [absorbOthers]
      split
      next hsub =>
        rcases List.mem_cons.1 hj with heq | hj2
        · rw [heq]
          have mono := @absorbOthers_first_mono store first rest hf
          exact ⟨fun x hx => mono.1 (hsub.1 hx), fun x hx => mono.2 (hsub.2 hx)⟩
        · exact ih hf hj2
      next hsub =>
        have hf2 : first < (store.set first ((getC store first).merge_with (getC store o))).length := by
          simpa using hf
        rcases List.mem_cons.1 hj with heq | hj2
        · rw [heq]
          have mono := @absorbOthers_first_mono
            (store.set first ((getC store first).merge_with (getC store o))) first rest hf2
          rw [getC_set_self hf] at mono
          exact ⟨fun x hx => mono.1 (Finset.mem_union_right _ hx),
                 fun x hx => mono.2 (Finset.mem_union_right _ hx)⟩
        · have step := @ih (store.set first ((getC store first).merge_with (getC store o))) hf2 hj2
          by_cases hjf : j = first
          · subst hjf
            rw [getC_set_self hf] at step
            exact ⟨fun x hx => step.1 (Finset.mem_union_left _ hx),
                   fun x hx => step.2 (Finset.mem_union_left _ hx)⟩
          · rw [getC_set_ne (fun he => hjf he.symm)] at step
            exact step

theorem absorbOthers_first_subset {store : List Cluster} {first : Nat} {os : List Nat}
    (hf : first < store.length) :
    (∀ x, x ∈ (getC (absorbOthers store first os) first).trackings →
      x ∈ (getC store first).trackings ∨ ∃ j ∈ os, x ∈ (getC store j).trackings) ∧
    (∀ x, x ∈ (getC (absorbOthers store first os) first).orders →
      x ∈ (getC store first).orders ∨ ∃ j ∈ os, x ∈ (getC store j).orders) := by
  induction os generalizing store with
  | nil => exact ⟨fun x hx => Or.inl hx, fun x hx => Or.inl hx⟩
  | cons o rest ih =>
      simp only [absorbOthers]
      split
      next hsub =>
        refine ⟨fun x hx => ?_, fun x hx => ?_⟩
        · rcases (ih hf).1 x hx with h1 | ⟨j, hj1, hj2⟩
          · exact Or.inl h1
          · exact Or.inr ⟨j, List.mem_cons_of_mem _ hj1, hj2⟩
        · rcases (ih hf).2 x hx with h1 | ⟨j, hj1, hj2⟩
          · exact Or.inl h1
          · exact Or.inr ⟨j, List.mem_cons_of_mem _ hj1, hj2⟩
      next hsub =>
        have hf2 : first < (store.set first ((getC store first).merge_with (getC store o))).length := by
          simpa using hf
        refine ⟨fun x hx => ?_, fun x hx => ?_⟩
        · rcases (ih hf2).1 x hx with h1 | ⟨j, hj1, hj2⟩
          · rw [getC_set_self hf] at h1
            rcases Finset.mem_union.1 h1 with h2 | h2
            · exact Or.inl h2
            · exact Or.inr ⟨o, List.mem_cons_self _ _, h2⟩
          · by_cases hjf : j = first
            · subst hjf
              rw [getC_set_self hf] at hj2
              rcases Finset.mem_union.1 hj2 with h2 | h2
              · exact Or.inl h2
              · exact Or.inr ⟨o, List.mem_cons_self _ _, h2⟩
            · rw [getC_set_ne (fun he => hjf he.symm)] at hj2
              exact Or.inr ⟨j, List.mem_cons_of_mem _ hj1, hj2⟩
        · rcases (ih hf2).2 x hx with h1 | ⟨j, hj1, hj2⟩
          · rw [getC_set_self hf] at h1
            rcases Finset.mem_union.1 h1 with h2 | h2
            · exact Or.inl h2
            · exact Or.inr ⟨o, List.mem_cons_self _ _, h2⟩
          · by_cases hjf : j = first
            · subst hjf
              rw [getC_set_self hf] at hj2
              rcases Finset.mem_union.1 hj2 with h2 | h2
              · exact Or.inl h2
              · exact Or.inr ⟨o, List.mem_cons_self _ _, h2⟩
            · rw [getC_set_ne (fun he => hjf he.symm)] at hj2
              exact Or.inr ⟨j, List.mem_cons_of_mem _ hj1, hj2⟩

theorem absorbOthers_no_absorb {store : List Cluster} {first : Nat} {os : List Nat}
    (h : ∀ j ∈ os, (getC store j).trackings ⊆ (getC store first).trackings ∧
      (getC store j).orders ⊆ (getC store first).orders) :
    absorbOthers store first os = store := by
  induction os with
  | nil => rfl
  | cons o rest ih =>
      simp only [absorbOthers]
      rw [if_pos (h o (List.mem_cons_self _ _))]
      exact ih (fun j hj => h j (List.mem_cons_of_mem _ hj))

/-! ### Helper lemmas: folds used by the snapshot importer -/

theorem foldl_union_mem (f : Cluster → Finset String) (l : List Cluster)
    (init : Finset String) (x : String) :
    x ∈ l.foldl (fun s c => s ∪ f c) init ↔ x ∈ init ∨ ∃ d ∈ l, x ∈ f d := by
  induction l generalizing init with
  | nil => simp
  | cons d0 rest ih =>
      simp only [List.foldl_cons, ih, Finset.mem_union, List.mem_cons]
      constructor
      · rintro ((h | h) | ⟨d, hd, hx⟩)
        · exact Or.inl h
        · exact Or.inr ⟨d0, Or.inl rfl, h⟩
        · exact Or.inr ⟨d, Or.inr hd, hx⟩
      · rintro (h | ⟨d, (rfl | hd), hx⟩)
        · exact Or.inl (Or.inl h)
        · exact Or.inl (Or.inr hx)
        · exact Or.inr ⟨d, hd, hx⟩

theorem foldl_add_sum (f : Cluster → ℚ) (l : List Cluster) (init : ℚ) :
    l.foldl (fun s c => s + f c) init = init + (l.map f).sum := by
  induction l generalizing init with
  | nil => simp
  | cons d0 rest ih =>
      simp only [List.foldl_cons, ih, List.map_cons, List.sum_cons]
      ring

/-! ### Concrete clusters used in witnesses and counterexamples -/

/-- A cluster holding only tracking `a`. -/
def exA : Cluster := { emptyCluster with trackings := {"a"} }

/-- A cluster holding only tracking `b`. -/
def exB : Cluster := { emptyCluster with trackings := {"b"} }

/-- A cluster holding only tracking `c`. -/
def exC : Cluster := { emptyCluster with trackings := {"c"} }

/-- A cluster holding trackings `b` and `c`. -/
def exBC : Cluster := { emptyCluster with trackings := {"b", "c"} }

/-- A snapshot cluster with trackings `a`,`b` whose tracking `b` is not yet
reimbursed; its own subset invariant holds. -/
def exSnapAB : Cluster :=
  { emptyCluster with
    trackings := {"a", "b"}
    non_reimbursed_trackings := {"b"}
    purchase_orders := {"P1"}
    tracked_cost := 4
    adjustment := 3
    notes := "from sheet"
    manual_override := true
    verified := true
    below_cost := true }

/-- A snapshot cluster identical in identity to `exA`, carrying review flags. -/
def exSnapA : Cluster :=
  { emptyCluster with
    trackings := {"a"}
    adjustment := 2
    notes := "  "
    manual_override := true
    verified := true
    below_cost := true }

/-- A verified cluster (all other fields empty). -/
def exVerified : Cluster := { emptyCluster with verified := true }

/-- C2: for every cluster the reported diff is
`tracked_cost + adjustment - expected_cost`, except that a cluster whose
`manual_override` flag is set always reports diff `0`, whatever its three
cost fields hold. -/
theorem C2_total_diff_spec (c : Cluster) :
    (c.manual_override = true → total_diff c = 0) ∧
    (c.manual_override = false →
      total_diff c = c.tracked_cost + c.adjustment - c.expected_cost) := by
  constructor <;> intro h <;> simp [total_diff, h]

/-- Witness for C2 at the spec's example: expected=100, tracked=40,
adjustment=0 with the override set reports diff 0, not -60. -/
theorem C2_total_diff_spec_witness :
    total_diff { emptyCluster with
      manual_override := true, expected_cost := 100, tracked_cost := 40 } = 0 :=
  (C2_total_diff_spec _).1 rfl

/-- C4 counterexample: the claim says a pair whose second cluster is verified
makes the first sort after the second. On the code, `compare` returns `-1`
for such a pair, which under `functools.cmp_to_key` places the first argument
before the second, so the claim fails at this concrete pair. -/
theorem C4_counterexample :
    ¬ ∀ c1 c2 : Cluster, c2.verified = true → sorts_after c1 c2 := by
  intro h
  have h2 := h exA exVerified rfl
  simp [sorts_after, Rec.compare, exVerified] at h2

/-- C4 amended: whenever the second cluster's `verified` flag is set, `compare`
returns `-1` regardless of every other field, which places the first cluster
before the second — the verified second cluster sorts later, not earlier. -/
theorem C4_verified_second_returns_neg (c1 c2 : Cluster) (h : c2.verified = true) :
    Rec.compare c1 c2 = -1 ∧ sorts_before c1 c2 := by
  constructor
  · simp [Rec.compare, h]
  · simp [sorts_before, Rec.compare, h]

/-- Witness for the amended C4 at a concrete pair. -/
theorem C4_verified_second_returns_neg_witness :
    Rec.compare exA exVerified = -1 ∧ sorts_before exA exVerified :=
  C4_verified_second_returns_neg exA exVerified rfl

/-- C10: `override_pos_and_costs` replaces rather than augments — the result's
purchase orders and non-reimbursed trackings are exactly the unions over the
snapshot candidates and its tracked cost is exactly their sum, whatever the
cluster held before; in particular with zero candidates the sets become empty
and the cost 0, while identity fields and adjustment are untouched. -/
theorem C10_override_replaces (c : Cluster) (downloaded : List Cluster) :
    (∀ po, po ∈ (override_pos_and_costs c downloaded).purchase_orders ↔
      ∃ d ∈ find_candidate_downloads c downloaded, po ∈ d.purchase_orders) ∧
    (∀ t, t ∈ (override_pos_and_costs c downloaded).non_reimbursed_trackings ↔
      ∃ d ∈ find_candidate_downloads c downloaded, t ∈ d.non_reimbursed_trackings) ∧
    (override_pos_and_costs c downloaded).tracked_cost =
      ((find_candidate_downloads c downloaded).map (·.tracked_cost)).sum ∧
    (find_candidate_downloads c downloaded = [] →
      (override_pos_and_costs c downloaded).purchase_orders = ∅ ∧
      (override_pos_and_costs c downloaded).non_reimbursed_trackings = ∅ ∧
      (override_pos_and_costs c downloaded).tracked_cost = 0) ∧
    (override_pos_and_costs c downloaded).trackings = c.trackings ∧
    (override_pos_and_costs c downloaded).orders = c.orders ∧
    (override_pos_and_costs c downloaded).adjustment = c.adjustment := by
  refine ⟨fun po => ?_, fun t => ?_, ?_, fun hnil => ?_, rfl, rfl, rfl⟩
  · simp [override_pos_and_costs, foldl_union_mem]
  · simp [override_pos_and_costs, foldl_union_mem]
  · simp [override_pos_and_costs, foldl_add_sum]
  · simp [override_pos_and_costs, hnil]

/-- A cluster with tracking `x`, pre-existing purchase orders, a
non-reimbursed tracking and a tracked cost, matching no snapshot row of the
C10 witness. -/
def exPreloadedX : Cluster :=
  { emptyCluster with
    trackings := {"x"}
    purchase_orders := {"P9"}
    non_reimbursed_trackings := {"x"}
    tracked_cost := 11 }

/-- Witness for C10: a cluster with pre-existing purchase orders, trackings
and tracked cost that matches no snapshot row comes out wiped: sets empty,
cost zero. -/
theorem C10_override_replaces_witness :
    (override_pos_and_costs exPreloadedX [exSnapAB]).purchase_orders = ∅ ∧
    (override_pos_and_costs exPreloadedX [exSnapAB]).non_reimbursed_trackings = ∅ ∧
    (override_pos_and_costs exPreloadedX [exSnapAB]).tracked_cost = 0 :=
  (C10_override_replaces _ _).2.2.2.1 (by decide)

/-- Orders used in the C8 witness. -/
def exOrdersC8 : Finset String := {"o1", "o2", "o3"}

/-- Order-cost lookup used in the C8 witness: o2's lookup fails. -/
def exLookupC8 : String → Option ℚ :=
  fun o => if o = "o1" then some 10 else if o = "o3" then some 20 else none

/-- Cluster used in the C8 witness. -/
def exClusterC8 : Cluster := { emptyCluster with orders := exOrdersC8 }

/-- C8: `fill_costs` sets `expected_cost` to the sum of the successfully
looked-up order costs only; a failing order contributes nothing and removing
a failing order from the cluster does not change the result, i.e. the other
orders are still summed. -/
theorem C8_fill_costs_skips_failures (f : String → Option ℚ) (c : Cluster) :
    (fill_costs f c).expected_cost =
      ∑ o ∈ c.orders.filter (fun o => (f o).isSome), (f o).getD 0 ∧
    ∀ o ∈ c.orders, f o = none →
      (fill_costs f c).expected_cost =
        (fill_costs f { c with orders := c.orders.erase o }).expected_cost := by
  have key : ∀ d : Cluster, (fill_costs f d).expected_cost =
      ∑ o ∈ d.orders.filter (fun o => (f o).isSome), (f o).getD 0 := by
    intro d
    have h0 : (fill_costs f d).expected_cost = ∑ o ∈ d.orders, (f o).getD 0 := by
      simp only [fill_costs]
      refine Finset.sum_congr rfl fun o _ => ?_
      cases f o <;> rfl
    rw [h0, Finset.sum_filter]
    refine Finset.sum_congr rfl fun o _ => ?_
    cases h : f o <;> simp [h]
  refine ⟨key c, fun o ho hnone => ?_⟩
  rw [key c, key { c with orders := c.orders.erase o }]
  show _ = ∑ x ∈ (c.orders.erase o).filter (fun o => (f o).isSome), (f x).getD 0
  rw [Finset.filter_erase]
  exact (Finset.sum_erase _ (by simp [hnone])).symm

/-- Witness for C8: order o2's lookup fails; the result equals the result with
o2 dropped, and orders o1, o3 are still counted. -/
theorem C8_fill_costs_skips_failures_witness :
    (fill_costs exLookupC8 exClusterC8).expected_cost =
    (fill_costs exLookupC8
      { exClusterC8 with orders := exClusterC8.orders.erase "o2" }).expected_cost :=
  (C8_fill_costs_skips_failures exLookupC8 exClusterC8).2 "o2" (by decide) (by decide)

/-- C1: `fill_adjustments` imports the three review flags from the snapshot
if and only if exactly one candidate matches and its trackings and orders
sets equal the cluster's; otherwise the flags are untouched, while adjustment
(summed over all candidates) and notes (non-blank ones joined with
semicolons) are imported either way. -/
theorem C1_fill_adjustments_guard (c : Cluster) (downloaded : List Cluster) :
    (fill_adjustments c downloaded).adjustment =
      ((find_candidate_downloads c downloaded).map (·.adjustment)).sum ∧
    (fill_adjustments c downloaded).notes =
      String.intercalate "; "
        (((find_candidate_downloads c downloaded).filter
          fun d => d.notes.trim ≠ "").map (·.notes)) ∧
    (∀ d, find_candidate_downloads c downloaded = [d] →
      d.trackings = c.trackings → d.orders = c.orders →
      (fill_adjustments c downloaded).manual_override = d.manual_override ∧
      (fill_adjustments c downloaded).verified = d.verified ∧
      (fill_adjustments c downloaded).below_cost = d.below_cost) ∧
    ((¬ ∃ d, find_candidate_downloads c downloaded = [d] ∧
        d.trackings = c.trackings ∧ d.orders = c.orders) →
      (fill_adjustments c downloaded).manual_override = c.manual_override ∧
      (fill_adjustments c downloaded).verified = c.verified ∧
      (fill_adjustments c downloaded).below_cost = c.below_cost) := by
  rcases hc : find_candidate_downloads c downloaded with _ | ⟨d0, _ | ⟨d1, rest⟩⟩
  · refine ⟨?_, ?_, ?_, ?_⟩
    · simp [fill_adjustments, hc]
    · simp [fill_adjustments, hc]
    · intro d hd
      simp at hd
    · intro hne
      simp [fill_adjustments, hc]
  · by_cases hg : d0.trackings = c.trackings ∧ d0.orders = c.orders
    · refine ⟨?_, ?_, ?_, ?_⟩
      · simp [fill_adjustments, hc, hg]
      · simp [fill_adjustments, hc, hg]
      · intro d hd htr hor
        have hd0 : d0 = d := by simpa using hd
        subst hd0
        simp [fill_adjustments, hc, hg]
      · intro hne
        exact absurd ⟨d0, rfl, hg.1, hg.2⟩ hne
    · refine ⟨?_, ?_, ?_, ?_⟩
      · simp [fill_adjustments, hc, hg]
      · simp [fill_adjustments, hc, hg]
      · intro d hd htr hor
        have hd0 : d0 = d := by simpa using hd
        subst hd0
        exact absurd ⟨htr, hor⟩ hg
      · intro hne
        simp [fill_adjustments, hc, hg]
  · refine ⟨?_, ?_, ?_, ?_⟩
    · simp [fill_adjustments, hc]
    · simp [fill_adjustments, hc]
    · intro d hd
      simp at hd
    · intro hne
      simp [fill_adjustments, hc]

/-- Witness for C1: a snapshot row with identical trackings and orders is the
single candidate, so all three review flags are imported. -/
theorem C1_fill_adjustments_guard_witness :
    (fill_adjustments exA [exSnapA]).manual_override = exSnapA.manual_override ∧
    (fill_adjustments exA [exSnapA]).verified = exSnapA.verified ∧
    (fill_adjustments exA [exSnapA]).below_cost = exSnapA.below_cost :=
  (C1_fill_adjustments_guard exA [exSnapA]).2.2.1 exSnapA (by decide) (by decide) (by decide)

/-! ### C3 machinery: the subset invariant through `fill_costs_new` -/

/-- The spec's invariant on a cluster: non-reimbursed trackings are among the
cluster's trackings. -/
def subsetInv (c : Cluster) : Prop := c.non_reimbursed_trackings ⊆ c.trackings

instance (c : Cluster) : Decidable (subsetInv c) :=
  inferInstanceAs (Decidable (c.non_reimbursed_trackings ⊆ c.trackings))

theorem getC_set_proj {α : Type} (f : Cluster → α) {store : List Cluster} {i : Nat}
    {c' : Cluster} (h : f c' = f (getC store i)) (j : Nat) :
    f (getC (store.set i c') j) = f (getC store j) := by
  by_cases hij : i = j
  · subst hij
    by_cases hlen : i < store.length
    · rw [getC_set_self hlen, h]
    · rw [List.set_eq_of_length_le (Nat.le_of_not_lt hlen)]
  · rw [getC_set_ne hij]

theorem subsetInv_set {store : List Cluster} {i : Nat} {c' : Cluster}
    (hc' : subsetInv c') (j : Nat) (h : subsetInv (getC store j)) :
    subsetInv (getC (store.set i c') j) := by
  by_cases hij : i = j
  · subst hij
    by_cases hlen : i < store.length
    · rw [getC_set_self hlen]; exact hc'
    · rw [List.set_eq_of_length_le (Nat.le_of_not_lt hlen)]; exact h
  · rw [getC_set_ne hij]; exact h

/-- A fold whose every step preserves a per-slot property preserves it. -/
theorem foldl_preserves {β : Type} (step : List Cluster → β → List Cluster)
    (P : Cluster → Prop) (hstep : ∀ st b j, P (getC st j) → P (getC (step st b) j))
    (l : List β) (st : List Cluster) (j : Nat) (h : P (getC st j)) :
    P (getC (l.foldl step st) j) := by
  induction l generalizing st with
  | nil => exact h
  | cons b rest ih => exact ih (step st b) (hstep st b j h)

/-- A fold whose every step preserves a cluster projection at every slot
preserves it. -/
theorem foldl_proj {β α : Type} (step : List Cluster → β → List Cluster)
    (f : Cluster → α) (hstep : ∀ st b j, f (getC (step st b) j) = f (getC st j))
    (l : List β) (st : List Cluster) (j : Nat) :
    f (getC (l.foldl step st) j) = f (getC st j) := by
  induction l generalizing st with
  | nil => rfl
  | cons b rest ih => rw [List.foldl_cons, ih (step st b), hstep st b j]

theorem resetStep_group (groups : Option (List String)) (st : List Cluster)
    (p : String × Nat) (j : Nat) :
    (getC (resetStep groups st p) j).group = (getC st j).group := by
  simp only [resetStep]
  split
  · rfl
  · refine getC_set_proj (fun c => c.group) ?_ j
    rfl

theorem resetStep_subsetInv (groups : Option (List String)) (st : List Cluster)
    (p : String × Nat) (j : Nat) (h : subsetInv (getC st j)) :
    subsetInv (getC (resetStep groups st p) j) := by
  simp only [resetStep]
  split
  · exact h
  · exact subsetInv_set (Finset.Subset.refl _) j h

theorem removeAll_subset (tup : List String) (s : Finset String) :
    removeAll s tup ⊆ s := by
  induction tup generalizing s with
  | nil => exact Finset.Subset.refl _
  | cons t rest ih =>
      exact fun x hx => Finset.erase_subset _ _ (ih (s.erase t) hx)

theorem attributeStep_subsetInv (index : List (String × Nat)) (st : List Cluster)
    (p : List String × ℚ) (j : Nat) (h : subsetInv (getC st j)) :
    subsetInv (getC (attributeStep index st p) j) := by
  rcases p with ⟨tup, cost⟩
  rcases tup with _ | ⟨first, trest⟩
  · exact h
  · rcases hal : alookup index first with _ | i
    · have he : attributeStep index st ⟨first :: trest, cost⟩ = st := by
        simp only [attributeStep, hal]
      rw [he]
      exact h
    · have he : attributeStep index st ⟨first :: trest, cost⟩ =
          st.set i { getC st i with
            tracked_cost := (getC st i).tracked_cost + cost
            non_reimbursed_trackings :=
              removeAll (getC st i).non_reimbursed_trackings (first :: trest) } := by
        simp only [attributeStep, hal]
      rw [he]
      by_cases hij : i = j
      · subst hij
        by_cases hlen : i < st.length
        · rw [getC_set_self hlen]
          exact fun x hx => h (removeAll_subset _ _ hx)
        · rw [List.set_eq_of_length_le (Nat.le_of_not_lt hlen)]
          exact h
      · rw [getC_set_ne hij]
        exact h

theorem poStep_subsetInv (ptc : String → Option ℚ) (st : List Cluster)
    (p : String × Nat) (j : Nat) (h : subsetInv (getC st j)) :
    subsetInv (getC (poStep ptc st p) j) := by
  simp only [poStep]
  by_cases hij : p.2 = j
  · subst hij
    by_cases hlen : p.2 < st.length
    · rw [getC_set_self hlen]
      exact h
    · rw [List.set_eq_of_length_le (Nat.le_of_not_lt hlen)]
      exact h
  · rw [getC_set_ne hij]
    exact h

theorem resetPhase_establishes (groups : Option (List String))
    (l : List (String × Nat)) (p : String × Nat) :
    ∀ (store : List Cluster), p ∈ l →
      skipCluster groups ((getC store p.2).group) = false →
      subsetInv (getC (resetPhase groups store l) p.2) := by
  induction l with
  | nil => intro store hp hskip; simp at hp
  | cons q rest ih =>
      intro store hp hskip
      have hcons : resetPhase groups store (q :: rest) =
          resetPhase groups (resetStep groups store q) rest := rfl
      rw [hcons]
      rcases List.mem_cons.1 hp with heq | hp2
      · show subsetInv (getC (rest.foldl (resetStep groups) (resetStep groups store q)) p.2)
        refine foldl_preserves (resetStep groups) subsetInv
          (fun st b j h => resetStep_subsetInv groups st b j h) rest
          (resetStep groups store q) p.2 ?_
        rw [heq] at hskip ⊢
        simp only [resetStep]
        rw [if_neg (by simp [hskip])]
        by_cases hlen : q.2 < store.length
        · rw [getC_set_self hlen]
          exact Finset.Subset.refl _
        · rw [List.set_eq_of_length_le (Nat.le_of_not_lt hlen)]
          have hnone : getC store q.2 = emptyCluster := by
            simp [getC, List.getD_eq_getElem?_getD,
              List.getElem?_eq_none (Nat.le_of_not_lt hlen)]
          rw [hnone]
          exact Finset.Subset.refl _
      · refine ih (resetStep groups store q) hp2 ?_
        rw [resetStep_group groups store q p.2]
        exact hskip

/-- C3 amended: the subset invariant `non_reimbursed_trackings ⊆ trackings`
holds after `fill_costs_new` for every cluster the mapping references, as long
as the `--groups` filter does not exclude it (the reset loop establishes the
invariant and the later loops only remove trackings). It does NOT hold at
every point of the pipeline: `override_pos_and_costs` can break it (see the
counterexample). -/
theorem C3_subset_invariant (s : MergeState) (ttc : List (List String × ℚ))
    (ptc : String → Option ℚ) (groups : Option (List String)) (p : String × Nat)
    (hp : p ∈ s.index)
    (hskip : skipCluster groups ((getC s.store p.2).group) = false) :
    (getC (fill_costs_new s ttc ptc groups).store p.2).non_reimbursed_trackings ⊆
      (getC (fill_costs_new s ttc ptc groups).store p.2).trackings := by
  have h1 := resetPhase_establishes groups s.index p s.store hp hskip
  have h2 := foldl_preserves (attributeStep s.index) subsetInv
    (fun st b j h => attributeStep_subsetInv s.index st b j h) ttc
    (resetPhase groups s.store s.index) p.2 h1
  have h3 := foldl_preserves (poStep ptc) subsetInv
    (fun st b j h => poStep_subsetInv ptc st b j h) s.index
    (attributePhase (resetPhase groups s.store s.index) s.index ttc) p.2 h2
  exact h3

/-- C3 counterexample: the snapshot cluster itself satisfies the invariant,
yet `override_pos_and_costs` onto a cluster that shares only tracking `a`
imports tracking `b` into `non_reimbursed_trackings` while the cluster's
trackings stay `{a}` — the invariant does not hold after snapshot import. -/
theorem C3_counterexample :
    subsetInv exSnapAB ∧ ¬ subsetInv (override_pos_and_costs exA [exSnapAB]) := by
  decide

/-- Witness for the amended C3 at a concrete state: one cluster with trackings
`{b, c}`, one tuple `(b)`, no group filter. -/
theorem C3_subset_invariant_witness :
    (getC (fill_costs_new (map_clusters_by_tracking [exBC]) [(["b"], 5)]
      (fun _ => none) none).store 0).non_reimbursed_trackings ⊆
    (getC (fill_costs_new (map_clusters_by_tracking [exBC]) [(["b"], 5)]
      (fun _ => none) none).store 0).trackings :=
  C3_subset_invariant (map_clusters_by_tracking [exBC]) [(["b"], 5)] (fun _ => none)
    none ("b", 0) (by decide) (by decide)

/-- Cluster for C7: two trackings sharing one purchase order. -/
def exW : Cluster :=
  { emptyCluster with
    trackings := {"a", "b"}
    purchase_orders := {"P"} }

/-- PO-cost lookup for C7: purchase order P costs 10. -/
def exPocC7 : String → Option ℚ := fun p => if p = "P" then some 10 else none

/-- C7 (code bug): the PO loop of `fill_costs_new` iterates the dict *values*
— one visit per key — so a cluster owning two trackings has each purchase
order's cost added twice: with PO cost 10 the tracked cost comes out 20,
where the claim (and the spec) require the PO cost to be added once, 10. -/
theorem C7_po_cost_added_per_key :
    (getC (fill_costs_new (map_clusters_by_tracking [exW]) [] exPocC7
      none).store 0).tracked_cost = 20 := by
  have hpo : exW.purchase_orders = ({"P"} : Finset String) := rfl
  have hsum : poSum exW.purchase_orders exPocC7 = 10 := by
    unfold poSum
    rw [hpo, Finset.sum_singleton]
    rfl
  have h4 : (getC (fill_costs_new (map_clusters_by_tracking [exW]) [] exPocC7
      none).store 0).tracked_cost =
      0 + poSum exW.purchase_orders exPocC7 + poSum exW.purchase_orders exPocC7 := rfl
  rw [h4, hsum]
  norm_num

/-! ### C6: characterization of one merge-loop iteration -/

/-- C6: for a tuple of size > 1 the merge loop resolves the tuple's trackings
through the mapping (skipping unknown ones); resolving to nothing changes
nothing; a singleton tuple is never used; otherwise the first resolved cluster
is the target: after the step every tracking of the tuple (mapped before or
not) points to the target, other mappings are untouched, every cluster object
other than the target is untouched, the target's trackings and orders are
exactly its old ones united with all resolved clusters' (absorption), and if
every other resolved cluster's trackings and orders are already subsets of the
target's then no cluster object changes at all. -/
theorem C6_processTuple_spec (s : MergeState) (tup : List String)
    (hv : ∀ q ∈ s.index, q.2 < s.store.length) :
    (tup.length = 1 → processTuple s tup = s) ∧
    (tup.filterMap (alookup s.index) = [] → processTuple s tup = s) ∧
    (1 < tup.length → ∀ first others,
      tup.filterMap (alookup s.index) = first :: others →
      (∀ t ∈ tup, alookup (processTuple s tup).index t = some first) ∧
      (∀ t, t ∉ tup → alookup (processTuple s tup).index t = alookup s.index t) ∧
      (∀ j, j ≠ first → getC (processTuple s tup).store j = getC s.store j) ∧
      (∀ x, x ∈ (getC (processTuple s tup).store first).trackings ↔
        (x ∈ (getC s.store first).trackings ∨
          ∃ j ∈ others, x ∈ (getC s.store j).trackings)) ∧
      (∀ x, x ∈ (getC (processTuple s tup).store first).orders ↔
        (x ∈ (getC s.store first).orders ∨
          ∃ j ∈ others, x ∈ (getC s.store j).orders)) ∧
      ((∀ j ∈ others, (getC s.store j).trackings ⊆ (getC s.store first).trackings ∧
          (getC s.store j).orders ⊆ (getC s.store first).orders) →
        (processTuple s tup).store = s.store)) := by
  refine ⟨fun h1 => by simp [processTuple, h1], fun h2 => ?_, ?_⟩
  · by_cases h1 : tup.length = 1
    · simp [processTuple, h1]
    · simp [processTuple, h1, h2]
  · intro hlen first others hres
    have h1 : ¬ tup.length = 1 := by omega
    have heq : processTuple s tup =
        ⟨absorbOthers s.store first others,
         tup.foldl (fun idx t => aupdate idx t first) s.index⟩ := by
      simp [processTuple, h1, hres]
    have hfirstmem : first ∈ tup.filterMap (alookup s.index) := by
      rw [hres]; exact List.mem_cons_self _ _
    obtain ⟨t0, ht0, hlook0⟩ := List.mem_filterMap.1 hfirstmem
    have hfirstlen : first < s.store.length := hv _ (alookup_mem hlook0)
    rw [heq]
    refine ⟨?_, ?_, ?_, ?_, ?_, ?_⟩
    · intro t ht
      exact alookup_foldl_aupdate_mem tup s.index first ht
    · intro t ht
      exact alookup_foldl_aupdate_not_mem tup s.index first ht
    · intro j hj
      exact absorbOthers_getC_ne hj
    · intro x
      constructor
      · intro hx
        exact (absorbOthers_first_subset hfirstlen).1 x hx
      · rintro (hx | ⟨j, hj, hx⟩)
        · exact (absorbOthers_first_mono others hfirstlen).1 hx
        · exact (absorbOthers_other_subset hfirstlen hj).1 hx
    · intro x
      constructor
      · intro hx
        exact (absorbOthers_first_subset hfirstlen).2 x hx
      · rintro (hx | ⟨j, hj, hx⟩)
        · exact (absorbOthers_first_mono others hfirstlen).2 hx
        · exact (absorbOthers_other_subset hfirstlen hj).2 hx
    · intro hsub
      exact absorbOthers_no_absorb hsub

/-- The state map_clusters_by_tracking builds for two singleton clusters. -/
def exS6 : MergeState := map_clusters_by_tracking [exA, exB]

/-- Witness for C6: merging tuple (a, b) over clusters {a} and {b} repoints
tracking b to the first resolved cluster, position 0. -/
theorem C6_processTuple_spec_witness :
    alookup (processTuple exS6 ["a", "b"]).index "b" = some 0 :=
  ((C6_processTuple_spec exS6 ["a", "b"] (by decide)).2.2 (by decide) 0 [1]
    (by decide)).1 "b" (by decide)

/-! ### C9: idempotence of the merge -/

theorem filterMap_const_some {tup : List String} {idx : List (String × Nat)}
    {i : Nat} (hi : ∀ t ∈ tup, alookup idx t = some i) :
    tup.filterMap (alookup idx) = tup.map (fun _ => i) := by
  induction tup with
  | nil => rfl
  | cons t0 rest ih =>
      rw [List.filterMap_cons, hi t0 (List.mem_cons_self _ _), List.map_cons]
      rw [ih (fun t ht => hi t (List.mem_cons_of_mem _ ht))]

theorem foldl_aupdate_noop {tup : List String} {idx : List (String × Nat)}
    {i : Nat} (hi : ∀ t ∈ tup, alookup idx t = some i) :
    tup.foldl (fun l t => aupdate l t i) idx = idx := by
  induction tup with
  | nil => rfl
  | cons t0 rest ih =>
      rw [List.foldl_cons, aupdate_same (hi t0 (List.mem_cons_self _ _))]
      exact ih (fun t ht => hi t (List.mem_cons_of_mem _ ht))

theorem processTuple_noop {s : MergeState} {tup : List String}
    (h : tup.length ≠ 1 → ∃ i, ∀ t ∈ tup, alookup s.index t = some i) :
    processTuple s tup = s := by
  by_cases hl : tup.length = 1
  · simp [processTuple, hl]
  obtain ⟨i, hi⟩ := h hl
  rcases htup : tup with _ | ⟨t0, trest⟩
  · simp [processTuple]
  subst htup
  have hfm : (t0 :: trest).filterMap (alookup s.index) =
      i :: trest.map (fun _ => i) := by
    rw [filterMap_const_some hi, List.map_cons]
  have hstore : absorbOthers s.store i (trest.map (fun _ => i)) = s.store := by
    refine absorbOthers_no_absorb ?_
    intro j hj
    rcases List.mem_map.1 hj with ⟨_, _, rfl⟩
    exact ⟨Finset.Subset.refl _, Finset.Subset.refl _⟩
  have hindex : (t0 :: trest).foldl (fun idx t => aupdate idx t i) s.index = s.index :=
    foldl_aupdate_noop hi
  calc processTuple s (t0 :: trest)
      = ⟨absorbOthers s.store i (trest.map (fun _ => i)),
         (t0 :: trest).foldl (fun idx t => aupdate idx t i) s.index⟩ := by
        simp only [processTuple]
        rw [if_neg hl, hfm]
    _ = ⟨s.store, s.index⟩ := by rw [hstore, hindex]
    _ = s := rfl

/-- C9 amended: re-running the merge engine changes nothing provided the state
being re-processed maps all trackings of each non-singleton tuple to one
common cluster. (The first run does not always establish this — see the
counterexample — so merging as implemented is not idempotent in general.) -/
theorem C9_merge_noop_on_stable (s : MergeState)
    (tuples : List (List String × ℚ))
    (h : ∀ p ∈ tuples, p.1.length ≠ 1 →
      ∃ i, ∀ t ∈ p.1, alookup s.index t = some i) :
    merge_by_trackings_tuples s tuples = s := by
  induction tuples with
  | nil => rfl
  | cons p rest ih =>
      have h1 : merge_by_trackings_tuples s (p :: rest) =
          merge_by_trackings_tuples (processTuple s p.1) rest := rfl
      rw [h1, processTuple_noop (h p (List.mem_cons_self _ _))]
      exact ih (fun q hq => h q (List.mem_cons_of_mem _ hq))

/-- The initial state for the C9 counterexample: three singleton clusters. -/
def exS9 : MergeState := map_clusters_by_tracking [exA, exB, exC]

/-- The tuples for the C9 counterexample. -/
def exT9 : List (List String × ℚ) := [(["a", "b"], 5), (["c", "b"], 7)]

/-- C9 counterexample: running the merge a second time with the same tuples on
the first run's output grows the cluster at position 0 from {a, b} to
{a, b, c} — the merge is not idempotent. (Tuple (a,b) merges b's cluster into
a's; tuple (c,b) then merges that cluster into c's and repoints only b and c,
so a still points at the stale partially-absorbed cluster, which the second
run merges again.) -/
theorem C9_counterexample :
    (getC (merge_by_trackings_tuples
      (merge_by_trackings_tuples exS9 exT9) exT9).store 0).trackings ≠
    (getC (merge_by_trackings_tuples exS9 exT9).store 0).trackings := by decide

/-- A single tuple for the C9 witness. -/
def exT9b : List (List String × ℚ) := [(["a", "b"], 5)]

/-- Witness for the amended C9: after merging clusters {a}, {b}, {c} with the
single tuple (a, b), both its trackings map to cluster 0, and a second run
leaves the state exactly unchanged. -/
theorem C9_merge_noop_on_stable_witness :
    merge_by_trackings_tuples (merge_by_trackings_tuples exS9 exT9b) exT9b =
      merge_by_trackings_tuples exS9 exT9b := by
  refine C9_merge_noop_on_stable _ _ ?_
  intro p hp hlen
  have hp2 : p = (["a", "b"], (5 : ℚ)) := by simpa [exT9b] using hp
  subst hp2
  exact ⟨0, by decide⟩

/-! ### C5: the partition property of the mapping -/

/-- A consistent tracking → cluster mapping: unique keys, positions in range,
every mapped tracking's cluster contains it, and every tracking of a
referenced cluster maps back to that cluster. -/
def consistentIndex (s : MergeState) : Prop :=
  (s.index.map Prod.fst).Nodup ∧
  (∀ p ∈ s.index, p.2 < s.store.length) ∧
  (∀ p ∈ s.index, p.1 ∈ (getC s.store p.2).trackings) ∧
  (∀ p ∈ s.index, ∀ t ∈ (getC s.store p.2).trackings, alookup s.index t = some p.2)

instance (s : MergeState) : Decidable (consistentIndex s) :=
  inferInstanceAs (Decidable ((s.index.map Prod.fst).Nodup ∧
    (∀ p ∈ s.index, p.2 < s.store.length) ∧
    (∀ p ∈ s.index, p.1 ∈ (getC s.store p.2).trackings) ∧
    (∀ p ∈ s.index, ∀ t ∈ (getC s.store p.2).trackings, alookup s.index t = some p.2)))

/-- The claim's partition property: every tracking in the mapping maps to
exactly one cluster that contains it, and no two distinct referenced clusters
share a tracking. -/
def partitionProp (s : MergeState) : Prop :=
  (∀ p ∈ s.index, alookup s.index p.1 = some p.2) ∧
  (∀ p ∈ s.index, p.1 ∈ (getC s.store p.2).trackings) ∧
  (∀ p ∈ s.index, ∀ q ∈ s.index, p.2 ≠ q.2 →
    (getC s.store p.2).trackings ∩ (getC s.store q.2).trackings = ∅)

instance (s : MergeState) : Decidable (partitionProp s) :=
  inferInstanceAs (Decidable ((∀ p ∈ s.index, alookup s.index p.1 = some p.2) ∧
    (∀ p ∈ s.index, p.1 ∈ (getC s.store p.2).trackings) ∧
    (∀ p ∈ s.index, ∀ q ∈ s.index, p.2 ≠ q.2 →
      (getC s.store p.2).trackings ∩ (getC s.store q.2).trackings = ∅)))

theorem alookup_of_mem_nodup {l : List (String × Nat)}
    (hnd : (l.map Prod.fst).Nodup) {p : String × Nat} (hp : p ∈ l) :
    alookup l p.1 = some p.2 := by
  induction l with
  | nil => simp at hp
  | cons q rest ih =>
      rcases q with ⟨k, v⟩
      simp only [List.map_cons, List.nodup_cons] at hnd
      rcases List.mem_cons.1 hp with heq | hp2
      · subst heq
        simp [alookup]
      · have hne : p.1 ≠ k := by
          intro h
          exact hnd.1 (h ▸ List.mem_map_of_mem Prod.fst hp2)
        simp only [alookup, if_neg hne]
        exact ih hnd.2 hp2

theorem consistent_partition (s : MergeState) (hc : consistentIndex s) :
    partitionProp s := by
  obtain ⟨hnd, hvalid, hmem, hclosed⟩ := hc
  refine ⟨fun p hp => alookup_of_mem_nodup hnd hp, hmem, ?_⟩
  intro p hp q hq hne
  rw [Finset.eq_empty_iff_forall_not_mem]
  intro x hx
  rcases Finset.mem_inter.1 hx with ⟨hx1, hx2⟩
  have e1 := hclosed p hp x hx1
  have e2 := hclosed q hq x hx2
  rw [e1] at e2
  exact hne (Option.some.inj e2)

/-- The per-step safety condition under which the merge loop preserves the
partition: non-singleton tuples resolve every tracking, and every resolved
cluster other than the target has all its trackings inside the tuple. -/
def stepAligned (s : MergeState) (tup : List String) : Prop :=
  tup.length = 1 ∨
  ((∀ t ∈ tup, (alookup s.index t).isSome = true) ∧
   ∀ j ∈ (tup.filterMap (alookup s.index)).tail,
     some j = (tup.filterMap (alookup s.index)).head? ∨
     ∀ x ∈ (getC s.store j).trackings, x ∈ tup)

instance (s : MergeState) (tup : List String) : Decidable (stepAligned s tup) :=
  inferInstanceAs (Decidable (tup.length = 1 ∨
    ((∀ t ∈ tup, (alookup s.index t).isSome = true) ∧
     ∀ j ∈ (tup.filterMap (alookup s.index)).tail,
       some j = (tup.filterMap (alookup s.index)).head? ∨
       ∀ x ∈ (getC s.store j).trackings, x ∈ tup)))

/-- `stepAligned` at every step of a run of the merge loop. -/
def alignedRun : MergeState → List (List String × ℚ) → Prop
  | _, [] => True
  | s, p :: rest => stepAligned s p.1 ∧ alignedRun (processTuple s p.1) rest

instance instDecAlignedRun :
    (s : MergeState) → (l : List (List String × ℚ)) → Decidable (alignedRun s l)
  | _, [] => .isTrue trivial
  | s, p :: rest =>
      have _h2 : Decidable (alignedRun (processTuple s p.1) rest) :=
        instDecAlignedRun _ rest
      inferInstanceAs (Decidable (_ ∧ _))

theorem consistentIndex_processTuple {s : MergeState} {tup : List String}
    (hc : consistentIndex s) (ha : stepAligned s tup) :
    consistentIndex (processTuple s tup) := by
  by_cases hl : tup.length = 1
  · rw [show processTuple s tup = s from by simp [processTuple, hl]]
    exact hc
  rcases ha with ha | ⟨hsome, halign⟩
  · exact absurd ha hl
  rcases hres : tup.filterMap (alookup s.index) with _ | ⟨first, others⟩
  · rw [show processTuple s tup = s from by simp [processTuple, hl, hres]]
    exact hc
  have heq : processTuple s tup =
      ⟨absorbOthers s.store first others,
       tup.foldl (fun idx t => aupdate idx t first) s.index⟩ := by
    simp only [processTuple]
    rw [if_neg hl, hres]
  rw [heq]
  obtain ⟨hnd, hvalid, hmem, hclosed⟩ := hc
  have hfirstmem : first ∈ tup.filterMap (alookup s.index) := by
    rw [hres]; exact List.mem_cons_self _ _
  obtain ⟨t0, ht0, hlook0⟩ := List.mem_filterMap.1 hfirstmem
  have hfirstlen : first < s.store.length := hvalid _ (alookup_mem hlook0)
  have halign2 : ∀ j ∈ others, j ≠ first →
      ∀ x ∈ (getC s.store j).trackings, x ∈ tup := by
    intro j hj hjne
    have hjtail : j ∈ (tup.filterMap (alookup s.index)).tail := by
      rw [hres]; exact hj
    rcases halign j hjtail with h | h
    · rw [hres] at h
      simp at h
      exact absurd h hjne
    · exact h
  have hlook_in : ∀ t ∈ tup,
      alookup (tup.foldl (fun idx t => aupdate idx t first) s.index) t = some first :=
    fun t ht => alookup_foldl_aupdate_mem tup s.index first ht
  have hlook_out : ∀ t, t ∉ tup →
      alookup (tup.foldl (fun idx t => aupdate idx t first) s.index) t =
        alookup s.index t :=
    fun t ht => alookup_foldl_aupdate_not_mem tup s.index first ht
  have hentries : ∀ p ∈ tup.foldl (fun idx t => aupdate idx t first) s.index,
      (p.1 ∈ tup ∧ p.2 = first) ∨ (p.1 ∉ tup ∧ p ∈ s.index) :=
    fun p hp => mem_foldl_aupdate hnd hp
  have hresolved : ∀ t ∈ tup, ∀ i, alookup s.index t = some i →
      i = first ∨ i ∈ others := by
    intro t ht i hlk
    have hmem2 : i ∈ tup.filterMap (alookup s.index) :=
      List.mem_filterMap.2 ⟨t, ht, hlk⟩
    rw [hres] at hmem2
    exact List.mem_cons.1 hmem2
  have hlen2 : (absorbOthers s.store first others).length = s.store.length :=
    absorbOthers_length _ _ _
  have hfirstcase : ∀ x, x ∈ (getC (absorbOthers s.store first others) first).trackings →
      alookup (tup.foldl (fun idx t => aupdate idx t first) s.index) x = some first := by
    intro x hx
    rcases (absorbOthers_first_subset hfirstlen).1 x hx with hx1 | ⟨j, hj, hx1⟩
    · by_cases hxt : x ∈ tup
      · exact hlook_in x hxt
      · rw [hlook_out x hxt]
        exact hclosed _ (alookup_mem hlook0) x hx1
    · by_cases hjf : j = first
      · subst hjf
        by_cases hxt : x ∈ tup
        · exact hlook_in x hxt
        · rw [hlook_out x hxt]
          exact hclosed _ (alookup_mem hlook0) x hx1
      · exact hlook_in x (halign2 j hj hjf x hx1)
  refine ⟨?_, ?_, ?_, ?_⟩
  · exact foldl_aupdate_keys_nodup tup first hnd
  · intro p hp
    rcases hentries p hp with ⟨_, h2⟩ | ⟨_, h2⟩
    · rw [h2, hlen2]
      exact hfirstlen
    · rw [hlen2]
      exact hvalid p h2
  · intro p hp
    rcases hentries p hp with ⟨h1, h2⟩ | ⟨h1, h2⟩
    · rw [h2]
      have hs := hsome p.1 h1
      rcases hh : alookup s.index p.1 with _ | i
      · rw [hh] at hs; simp at hs
      · have hpmem : p.1 ∈ (getC s.store i).trackings := hmem _ (alookup_mem hh)
        rcases hresolved p.1 h1 i hh with heq2 | hio
        · subst heq2
          exact (absorbOthers_first_mono others hfirstlen).1 hpmem
        · exact (absorbOthers_other_subset hfirstlen hio).1 hpmem
    · have hpmem := hmem p h2
      by_cases hpf : p.2 = first
      · rw [hpf] at hpmem ⊢
        exact (absorbOthers_first_mono others hfirstlen).1 hpmem
      · rw [absorbOthers_getC_ne hpf]
        exact hpmem
  · intro p hp x hx
    rcases hentries p hp with ⟨h1, h2⟩ | ⟨h1, h2⟩
    · rw [h2] at hx ⊢
      exact hfirstcase x hx
    · by_cases hpf : p.2 = first
      · rw [hpf] at hx ⊢
        exact hfirstcase x hx
      · rw [absorbOthers_getC_ne hpf] at hx
        have hlkx : alookup s.index x = some p.2 := hclosed p h2 x hx
        by_cases hxt : x ∈ tup
        · exfalso
          rcases hresolved x hxt p.2 hlkx with h3 | h3
          · exact hpf h3
          · exact h1 (halign2 p.2 h3 hpf p.1 (hmem p h2))
        · rw [hlook_out x hxt]
          exact hlkx

theorem consistentIndex_merge {s : MergeState} {tuples : List (List String × ℚ)}
    (hc : consistentIndex s) (ha : alignedRun s tuples) :
    consistentIndex (merge_by_trackings_tuples s tuples) := by
  induction tuples generalizing s with
  | nil => exact hc
  | cons p rest ih =>
      have ha2 : stepAligned s p.1 ∧ alignedRun (processTuple s p.1) rest := ha
      have h1 : merge_by_trackings_tuples s (p :: rest) =
          merge_by_trackings_tuples (processTuple s p.1) rest := rfl
      rw [h1]
      exact ih (consistentIndex_processTuple hc ha2.1) ha2.2

/-- C5 amended: merging preserves the partition property provided the run is
aligned — every non-singleton tuple resolves all of its trackings and each
resolved cluster other than the target lies wholly inside the tuple. Starting
from a consistent mapping, an aligned run ends with the mapping partitioning
the trackings: every mapped tracking's unique cluster contains it and no two
referenced clusters share a tracking. Without alignment the property fails
(see the counterexample). -/
theorem C5_partition_after_aligned_merge (s : MergeState)
    (tuples : List (List String × ℚ)) (hc : consistentIndex s)
    (ha : alignedRun s tuples) :
    partitionProp (merge_by_trackings_tuples s tuples) :=
  consistent_partition _ (consistentIndex_merge hc ha)

/-- The initial state of the C5 counterexample: clusters {a} and {b, c}. -/
def exS5 : MergeState := map_clusters_by_tracking [exA, exBC]

/-- C5 counterexample: the initial mapping for clusters {a} and {b, c} is a
proper partition, yet after merging the single tuple (a, b) the partition
property fails: cluster {b, c} is absorbed into the target, but only the
tuple's trackings are repointed, so c still references the absorbed cluster
while the target also contains c — two referenced clusters share a tracking. -/
theorem C5_counterexample :
    consistentIndex exS5 ∧
    ¬ partitionProp (merge_by_trackings_tuples exS5 [(["a", "b"], 1)]) := by
  decide

/-- The initial state of the C5 witness: three singleton clusters. -/
def exS5w : MergeState := map_clusters_by_tracking [exA, exB, exC]

/-- Witness for the amended C5 at a concrete aligned run. -/
theorem C5_partition_after_aligned_merge_witness :
    partitionProp (merge_by_trackings_tuples exS5w [(["a", "b"], 5)]) :=
  C5_partition_after_aligned_merge exS5w [(["a", "b"], 5)] (by decide) (by decide)
